import Mathlib

/-!
Verification of the proseq.py protein-sequence extraction pipeline.

The program reads a PDB text file line by line, extracts per-chain
(sequence number, residue name) records from ATOM lines with fixed-column
fields, deduplicates them per chain by sequence number, sorts each chain,
and then renders the merged sequence in one-letter or three-letter codes,
single-line or multi-line.  Lines of the input file are modelled as
`List Char` (as delivered by the Python file iteration), the Document as an
association list in chain first-insertion order, and diagnostic stderr
messages as an explicit event list.
-/

namespace ProSeq

/-- Whitespace characters removed by the Python str.strip as used in
proseq.py (the ASCII ones; the fixed PDB columns only ever hold spaces,
Unicode whitespace is not modelled). -/
def pyIsSpace (c : Char) : Bool :=
  c = ' ' || c = '\t' || c = '\n' || c = '\r' || c = '\x0b' || c = '\x0c'

/-- Python str.strip: drop whitespace from both ends. -/
def pyStrip (l : List Char) : List Char :=
  ((l.dropWhile pyIsSpace).reverse.dropWhile pyIsSpace).reverse

/-- Python slice l[a:b] for 0 ≤ a ≤ b (clamping at the end of the list,
as Python slicing does). -/
def pySlice (l : List Char) (a b : Nat) : List Char :=
  (l.drop a).take (b - a)

/-- Accumulate the decimal digits of a Python int literal; a single
underscore is allowed between two digits, as the Python int() accepts. -/
def digitsCore : Nat → List Char → Option Nat
  | acc, [] => some acc
  | acc, c :: rest =>
    if c.isDigit then digitsCore (acc * 10 + (c.toNat - 48)) rest
    else if c = '_' then
      match rest with
      | [] => none
      | d :: rest2 =>
        if d.isDigit then digitsCore (acc * 10 + (d.toNat - 48)) rest2
        else none
    else none

/-- A nonempty digit sequence (first character must be a digit). -/
def pyDigits : List Char → Option Nat
  | [] => none
  | c :: rest => if c.isDigit then digitsCore (c.toNat - 48) rest else none

/-- Python int() applied to an already stripped string: an optional sign
followed by a nonempty digit sequence. -/
def pyInt (l : List Char) : Option Int :=
  match l with
  | '+' :: rest => (pyDigits rest).map (fun n => (n : Int))
  | '-' :: rest => (pyDigits rest).map (fun n => -(n : Int))
  | _ => (pyDigits l).map (fun n => (n : Int))

/-- Result of examining one input line inside the extractor loop. -/
inductive LineResult
  | notAtom
  | malformed
  | record (chain : String) (seqNum : Int) (resName : String)
deriving DecidableEq

/-- One iteration of the extractor loop of parse_pdb_sequence: lines not
starting with "ATOM" are ignored; reading line[21] on a line shorter than
22 characters raises IndexError and int() on a non-numeric sequence-number
field raises ValueError, both caught and mapped to malformed; otherwise the
record fields are res_name = line[17:20].strip(), chain_id = line[21].strip()
(defaulted to "A" when blank) and res_seq_num = int(line[22:26].strip()). -/
def processLine (line : List Char) : LineResult :=
  if ("ATOM".toList).isPrefixOf line then
    let resName := pyStrip (pySlice line 17 20)
    match line.drop 21 with
    | [] => .malformed
    | c :: _ =>
      let chain0 := pyStrip [c]
      let chainId := if chain0.isEmpty then "A" else String.mk chain0
      match pyInt (pyStrip (pySlice line 22 26)) with
      | none => .malformed
      | some n => .record chainId n (String.mk resName)
  else .notAtom

/-- The Document: chain id mapped to its list of (sequence number,
residue name) records, chains kept in first-insertion order exactly as a
Python dict. -/
abbrev Doc := List (String × List (Int × String))

/-- Accepting a record: the membership test mirrors the seen_residues
check in parse_pdb_sequence (the seen set of a chain is exactly the set of
first components already in its list), and a fresh chain is created at the
end, as defaultdict insertion order does. -/
def addRecord (doc : Doc) (c : String) (n : Int) (nm : String) : Doc :=
  match doc with
  | [] => [(c, [(n, nm)])]
  | (c0, l0) :: rest =>
    if c0 = c then
      if l0.any (fun p => p.1 = n) then (c0, l0) :: rest
      else (c0, l0 ++ [(n, nm)]) :: rest
    else (c0, l0) :: addRecord rest c n nm

/-- Diagnostic events written to the stderr stream, each carrying the
varying payload of the printed message. -/
inductive Diag
  | skipLine (strippedLine : String)
  | unknownResidues (joinedNames : String)
  | noEntries
  | readError
  | writeError
deriving DecidableEq

/-- One loop iteration of parse_pdb_sequence over a line: skipped lines
leave the state alone, malformed ATOM lines emit the warning naming the
stripped line, accepted records go through addRecord. -/
def parseStep (st : Doc × List Diag) (line : List Char) : Doc × List Diag :=
  match processLine line with
  | .notAtom => st
  | .malformed => (st.1, st.2 ++ [.skipLine (String.mk (pyStrip line))])
  | .record c n nm => (addRecord st.1 c n nm, st.2)

/-- The extractor loop over the whole file. -/
def parseLines (lines : List (List Char)) : Doc × List Diag :=
  lines.foldl parseStep ([], [])

/-- Boolean lexicographic comparison of character lists, the order Python
uses on strings (by code point). -/
def charListLeB : List Char → List Char → Bool
  | [], _ => true
  | _ :: _, [] => false
  | a :: as, b :: bs =>
    if a < b then true else if a = b then charListLeB as bs else false

/-- String comparison via the underlying character lists. -/
def strLe (a b : String) : Prop := charListLeB a.toList b.toList = true

instance : DecidableRel strLe := fun _ _ => inferInstanceAs (Decidable (_ = true))

/-- Boolean lexicographic comparison on (sequence number, residue name)
pairs: the order Python list.sort uses on these tuples. -/
def recLeB (a b : Int × String) : Bool :=
  if a.1 < b.1 then true
  else if a.1 = b.1 then charListLeB a.2.toList b.2.toList
  else false

/-- The sort order of the per-chain record lists. -/
def recLe (a b : Int × String) : Prop := recLeB a b = true

instance : DecidableRel recLe := fun _ _ => inferInstanceAs (Decidable (_ = true))

/-- The per-chain sort sequences[chain_id].sort() at the end of
parse_pdb_sequence. -/
def sortChain (l : List (Int × String)) : List (Int × String) :=
  List.insertionSort recLe l

/-- parse_pdb_sequence on a readable file, returned as the Document plus
the warnings emitted on stderr. -/
def parse_pdb_sequence (lines : List (List Char)) : Doc × List Diag :=
  let st := parseLines lines
  (st.1.map (fun p => (p.1, sortChain p.2)), st.2)

/-- The THREE_TO_ONE table of proseq.py as an association list. -/
def threeToOneTable : List (String × String) :=
  [("ALA", "A"), ("ARG", "R"), ("ASN", "N"), ("ASP", "D"), ("CYS", "C"),
   ("GLU", "E"), ("GLN", "Q"), ("GLY", "G"), ("HIS", "H"), ("ILE", "I"),
   ("LEU", "L"), ("LYS", "K"), ("MET", "M"), ("PHE", "F"), ("PRO", "P"),
   ("SER", "S"), ("THR", "T"), ("TRP", "W"), ("TYR", "Y"), ("VAL", "V")]

/-- Dictionary lookup THREE_TO_ONE.get(name). -/
def THREE_TO_ONE (s : String) : Option String :=
  (threeToOneTable.find? (fun p => p.1 = s)).map Prod.snd

inductive CodeFormat
  | oneLetter
  | threeLetter
deriving DecidableEq

inductive OutputStyle
  | singleLine
  | multiLine
deriving DecidableEq

/-- sorted(sequences.keys()). -/
def sortedKeys (doc : Doc) : List String :=
  List.insertionSort strLe (doc.map Prod.fst)

/-- Dictionary lookup sequences[chain_id] (first matching chain entry). -/
def chainRecords : Doc → String → List (Int × String)
  | [], _ => []
  | (c0, l) :: rest, c => if c0 = c then l else chainRecords rest c

/-- full_sequence_list: the residue names of every chain, chains in sorted
key order, each chain in its stored record order. -/
def full_sequence_list (doc : Doc) : List String :=
  ((sortedKeys doc).map (fun c => (chainRecords doc c).map Prod.snd)).flatten

/-- Adding a name to the unknown_residues set (represented as a duplicate
free list in first-insertion order; the rendering below sorts it, so the
representation order is immaterial). -/
def insertSet (a : String) (l : List String) : List String :=
  if a ∈ l then l else l ++ [a]

/-- One iteration of the one-letter loop of format_sequence: look the name
up with default "X", record it among the unknown residues when the lookup
failed, append the code. -/
def oneLetterStep (st : List String × List String) (nm : String) :
    List String × List String :=
  let code := (THREE_TO_ONE nm).getD "X"
  (st.1 ++ [code],
    if code = "X" ∧ THREE_TO_ONE nm = none then insertSet nm st.2 else st.2)

/-- sorted(...) on strings. -/
def sortStrings (l : List String) : List String :=
  List.insertionSort strLe l

/-- The aggregated unknown-residue warning of format_sequence: nothing if
the set is empty, otherwise one message carrying the sorted names joined
with a comma and a space. -/
def unknownWarning (unknowns : List String) : List Diag :=
  if unknowns.isEmpty then []
  else [.unknownResidues (String.intercalate ", " (sortStrings unknowns))]

/-- format_sequence: flatten the chains in sorted key order, return ""
immediately when empty, translate through THREE_TO_ONE (with the "X"
fallback and the aggregated warning) for one-letter and keep the names
verbatim for three-letter, then join with "" / " " / "\n" according to the
options. -/
def format_sequence (doc : Doc) (fmt : CodeFormat) (style : OutputStyle) :
    String × List Diag :=
  let fsl := full_sequence_list doc
  if fsl.isEmpty then ("", [])
  else
    let step :=
      match fmt with
      | .oneLetter =>
        let st := fsl.foldl oneLetterStep ([], [])
        (st.1, st.2, "")
      | .threeLetter => (fsl, [], " ")
    let warns := unknownWarning step.2.1
    match style with
    | .singleLine => (String.intercalate step.2.2 step.1, warns)
    | .multiLine => (String.intercalate "\n" step.1, warns)

/-- The state of the target file over a run. -/
inductive TargetState
  | untouched
  | written (content : String)
  | failed
deriving DecidableEq

/-- write_output: on success the target file holds the content plus exactly
one trailing newline and True is returned; on an IO failure an error is
printed and False is returned.  The ok flag models whether the environment
lets the open/write succeed. -/
def write_output (content : String) (ok : Bool) : TargetState × Bool :=
  if ok then (.written (content ++ "\n"), true) else (.failed, false)

/-- Observable outcome of one run of main. -/
structure RunResult where
  exitCode : Nat
  target : TargetState
  diags : List Diag
deriving DecidableEq

/-- main: a None source models parse_pdb_sequence returning None because
the source file could not be opened or read (sys.exit(1) before the target
is ever touched); otherwise the pipeline runs, an empty Document prints the
no-entries warning and writes the empty string, and a failing write exits 1.
Diagnostics are listed in emission order. -/
def main_run (source : Option (List (List Char))) (fmt : CodeFormat)
    (style : OutputStyle) (writeOk : Bool) : RunResult :=
  match source with
  | none => { exitCode := 1, target := .untouched, diags := [.readError] }
  | some lines =>
    let st := parse_pdb_sequence lines
    let fr :=
      if st.1.isEmpty then ("", [Diag.noEntries])
      else format_sequence st.1 fmt style
    match write_output fr.1 writeOk with
    | (ts, true) => { exitCode := 0, target := ts, diags := st.2 ++ fr.2 }
    | (ts, false) =>
      { exitCode := 1, target := ts, diags := st.2 ++ fr.2 ++ [.writeError] }

/-! ### Derived views of the code used to state the properties -/

/-- The Document-only part of one extractor loop iteration. -/
def docStep (doc : Doc) (line : List Char) : Doc :=
  match processLine line with
  | .record c n nm => addRecord doc c n nm
  | _ => doc

/-- The warning, if any, that one extractor loop iteration emits. -/
def lineWarn (line : List Char) : Option Diag :=
  match processLine line with
  | .malformed => some (.skipLine (String.mk (pyStrip line)))
  | _ => none

/-- The residue name carried by the first line of the file that parses to a
record of chain c with sequence number n. -/
def firstRecord (lines : List (List Char)) (c : String) (n : Int) : Option String :=
  match lines with
  | [] => none
  | l :: rest =>
    match processLine l with
    | .record c0 n0 nm => if c0 = c ∧ n0 = n then some nm else firstRecord rest c n
    | _ => firstRecord rest c n

/-- The chain keys of a Document, in insertion order. -/
def docKeys (doc : Doc) : List String := doc.map Prod.fst

/-- The chain identifier carried in column 22 (index 21) of a line that
begins with the atom-record marker, with a blank column normalized to the
default chain "A"; none for other lines and for atom lines with no column
22. -/
def atomChainOf (line : List Char) : Option String :=
  if ("ATOM".toList).isPrefixOf line then
    match line.drop 21 with
    | [] => none
    | c :: _ =>
      some (if (pyStrip [c]).isEmpty then "A" else String.mk (pyStrip [c]))
  else none

/-- First-occurrence deduplication, the set semantics the formatter uses for
unknown_residues. -/
def firstDedup (l : List String) : List String :=
  l.foldl (fun acc a => insertSet a acc) []

/-- The one-letter token of a residue name: the table code, or "X". -/
def oneToken (nm : String) : String := (THREE_TO_ONE nm).getD "X"

/-- Whether a residue name is missing from the code table. -/
def unknownName (nm : String) : Bool := (THREE_TO_ONE nm).isNone

/-- The Document of the worked scenario of the specification. -/
def scenarioDoc : Doc := [("A", [(5, "ALA"), (6, "GLY")]), ("B", [(1, "SER")])]

/-- Invariant of Documents built by the extractor: every chain carries
pairwise distinct sequence numbers and is nonempty. -/
def DocInv (doc : Doc) : Prop :=
  ∀ p ∈ doc, ((p.2.map Prod.fst).Nodup ∧ p.2 ≠ [])

/-- Sample ATOM line: residue ALA, chain A, sequence number 5. -/
def sampleLineA5 : List Char :=
  "ATOM      1  N   ALA A   5      11.104  13.207  10.000".toList

/-- Sample ATOM line: residue GLY, chain A, sequence number 6. -/
def sampleLineA6 : List Char :=
  "ATOM      2  CA  GLY A   6      12.560  14.334  10.000".toList

/-- Sample ATOM line: residue SER, chain B, sequence number 1. -/
def sampleLineB1 : List Char :=
  "ATOM      3  N   SER B   1      13.512  15.210  10.000".toList

/-- Sample ATOM line repeating chain A sequence number 5 under a different
residue name. -/
def sampleLineA5dup : List Char :=
  "ATOM      4  CA  GLY A   5      11.300  13.100  10.000".toList

/-- Sample malformed ATOM line: the sequence-number field is not numeric. -/
def sampleLineBadSeq : List Char :=
  "ATOM      5  N   SER B   x      14.100  15.900  10.000".toList

/-! ### Order lemmas for the two sort relations -/

theorem charListLeB_total (as bs : List Char) : charListLeB as bs ∨ charListLeB bs as := by
  induction as generalizing bs with
  | nil => left; rfl
  | cons a as ih =>
    cases bs with
    | nil => right; rfl
    | cons b bs =>
      rcases lt_trichotomy a b with h | h | h
      · left; simp [charListLeB, h]
      · subst h
        rcases ih bs with h2 | h2 <;> [left; right] <;> simp [charListLeB, h2]
      · right; simp [charListLeB, h]

theorem charListLeB_trans {as bs cs : List Char} (h1 : charListLeB as bs)
    (h2 : charListLeB bs cs) : charListLeB as cs := by
  induction as generalizing bs cs with
  | nil => rfl
  | cons a as ih =>
    cases bs with
    | nil => simp [charListLeB] at h1
    | cons b bs =>
      cases cs with
      | nil => simp [charListLeB] at h2
      | cons c cs =>
        simp only [charListLeB] at h1 h2 ⊢
        rcases lt_trichotomy a b with hab | hab | hab
        · rcases lt_trichotomy b c with hbc | hbc | hbc
          · simp [lt_trans hab hbc]
          · subst hbc; simp [hab]
          · rw [if_neg (not_lt_of_gt hbc), if_neg (ne_of_gt hbc)] at h2
            exact absurd h2 (by simp)
        · subst hab
          rcases lt_trichotomy a c with hac | hac | hac
          · simp [hac]
          · subst hac
            rw [if_neg (lt_irrefl a), if_pos rfl] at h1 h2 ⊢
            exact ih h1 h2
          · rw [if_neg (not_lt_of_gt hac), if_neg (ne_of_gt hac)] at h2
            exact absurd h2 (by simp)
        · rw [if_neg (not_lt_of_gt hab), if_neg (ne_of_gt hab)] at h1
          exact absurd h1 (by simp)

instance : IsTotal String strLe :=
  ⟨fun a b => charListLeB_total a.toList b.toList⟩

instance : IsTrans String strLe :=
  ⟨fun _ _ _ h1 h2 => charListLeB_trans h1 h2⟩

theorem recLe_total (a b : Int × String) : recLe a b ∨ recLe b a := by
  unfold recLe recLeB
  rcases lt_trichotomy a.1 b.1 with h | h | h
  · left; simp [h]
  · rcases charListLeB_total a.2.toList b.2.toList with h2 | h2
    · left
      rw [if_neg (by simp [h]), if_pos h]
      exact h2
    · right
      rw [if_neg (by simp [h.symm]), if_pos h.symm]
      exact h2
  · right; simp [h]

theorem recLe_trans {a b c : Int × String} (h1 : recLe a b) (h2 : recLe b c) :
    recLe a c := by
  unfold recLe recLeB at h1 h2 ⊢
  rcases lt_trichotomy a.1 b.1 with hab | hab | hab
  · rcases lt_trichotomy b.1 c.1 with hbc | hbc | hbc
    · simp [lt_trans hab hbc]
    · simp [hbc ▸ hab]
    · rw [if_neg (not_lt_of_gt hbc), if_neg (ne_of_gt hbc)] at h2
      exact absurd h2 (by simp)
  · rw [hab] at h1
    rw [if_neg (lt_irrefl b.1), if_pos rfl] at h1
    rcases lt_trichotomy b.1 c.1 with hbc | hbc | hbc
    · simp [hab ▸ hbc]
    · rw [hbc] at h2
      rw [if_neg (lt_irrefl c.1), if_pos rfl] at h2
      rw [hab, hbc]
      rw [if_neg (lt_irrefl c.1), if_pos rfl]
      exact charListLeB_trans h1 h2
    · rw [if_neg (not_lt_of_gt hbc), if_neg (ne_of_gt hbc)] at h2
      exact absurd h2 (by simp)
  · rw [if_neg (not_lt_of_gt hab), if_neg (ne_of_gt hab)] at h1
    exact absurd h1 (by simp)

instance : IsTotal (Int × String) recLe := ⟨recLe_total⟩

instance : IsTrans (Int × String) recLe := ⟨fun _ _ _ => recLe_trans⟩

/-- Under recLe, distinct sequence numbers are ordered strictly. -/
theorem recLe_lt_of_ne {a b : Int × String} (h : recLe a b) (hne : a.1 ≠ b.1) :
    a.1 < b.1 := by
  unfold recLe recLeB at h
  by_cases h1 : a.1 < b.1
  · exact h1
  · rw [if_neg h1, if_neg hne] at h
    exact absurd h (by simp)

/-! ### The extractor loop, split into Document part and diagnostics part -/

theorem parseStep_fst (st : Doc × List Diag) (line : List Char) :
    (parseStep st line).1 = docStep st.1 line := by
  unfold parseStep docStep
  cases processLine line <;> rfl

theorem parseStep_snd (st : Doc × List Diag) (line : List Char) :
    (parseStep st line).2 = st.2 ++ (lineWarn line).toList := by
  unfold parseStep lineWarn
  cases processLine line <;> simp

theorem foldl_parseStep_fst (lines : List (List Char)) (st : Doc × List Diag) :
    (List.foldl parseStep st lines).1 = List.foldl docStep st.1 lines := by
  induction lines generalizing st with
  | nil => rfl
  | cons l rest ih => rw [List.foldl_cons, List.foldl_cons, ih, parseStep_fst]

theorem foldl_parseStep_snd (lines : List (List Char)) (st : Doc × List Diag) :
    (List.foldl parseStep st lines).2 = st.2 ++ lines.filterMap lineWarn := by
  induction lines generalizing st with
  | nil => simp
  | cons l rest ih =>
    rw [List.foldl_cons, ih, parseStep_snd, List.filterMap_cons]
    cases lineWarn l <;> simp

theorem parse_pdb_sequence_fst (lines : List (List Char)) :
    (parse_pdb_sequence lines).1
      = (List.foldl docStep [] lines).map (fun p => (p.1, sortChain p.2)) := by
  simp only [parse_pdb_sequence, parseLines]
  rw [foldl_parseStep_fst]

theorem parse_pdb_sequence_snd (lines : List (List Char)) :
    (parse_pdb_sequence lines).2 = lines.filterMap lineWarn := by
  simp only [parse_pdb_sequence, parseLines]
  rw [foldl_parseStep_snd]
  rfl

/-! ### Chain contents under record insertion -/

theorem chainRecords_addRecord (doc : Doc) (c : String) (n : Int) (nm : String)
    (c' : String) :
    chainRecords (addRecord doc c n nm) c'
      = if c' = c then
          (if (chainRecords doc c).any (fun p => p.1 = n) then chainRecords doc c
           else chainRecords doc c ++ [(n, nm)])
        else chainRecords doc c' := by
  induction doc with
  | nil =>
    by_cases h : c' = c
    · subst h; simp [addRecord, chainRecords]
    · simp [addRecord, chainRecords, h, Ne.symm h]
  | cons p rest ih =>
    obtain ⟨c0, l0⟩ := p
    by_cases h0 : c0 = c
    · subst h0
      by_cases h' : c0 = c'
      · subst h'
        by_cases hdup : l0.any (fun p => p.1 = n) <;>
          simp [addRecord, chainRecords, hdup]
      · by_cases hdup : l0.any (fun p => p.1 = n) <;>
          simp [addRecord, chainRecords, hdup, h', Ne.symm h']
    · by_cases h' : c0 = c'
      · subst h'
        simp [addRecord, chainRecords, h0]
      · simp only [addRecord, if_neg h0, chainRecords, if_neg h']
        rw [ih]

theorem any_fst_eq (l : List (Int × String)) (n : Int) :
    (l.any (fun p => p.1 = n)) = true ↔ n ∈ l.map Prod.fst := by
  rw [List.any_eq_true]
  constructor
  · rintro ⟨p, hp, he⟩
    exact List.mem_map.mpr ⟨p, hp, by simpa using he⟩
  · intro h
    rcases List.mem_map.mp h with ⟨p, hp, he⟩
    exact ⟨p, hp, by simp [he]⟩

theorem chainRecords_map_sortChain (doc : Doc) (c : String) :
    chainRecords (doc.map (fun p => (p.1, sortChain p.2))) c
      = sortChain (chainRecords doc c) := by
  induction doc with
  | nil => rfl
  | cons p rest ih =>
    obtain ⟨c0, l0⟩ := p
    by_cases h : c0 = c <;> simp [chainRecords, h, ih]

theorem mem_sortChain (l : List (Int × String)) (p : Int × String) :
    p ∈ sortChain l ↔ p ∈ l :=
  (List.perm_insertionSort recLe l).mem_iff

/-! ### First-wins deduplication -/

theorem mem_chainRecords_foldl (lines : List (List Char)) (doc : Doc)
    (c : String) (n : Int) (nm : String) :
    (n, nm) ∈ chainRecords (List.foldl docStep doc lines) c ↔
      ((n, nm) ∈ chainRecords doc c ∨
        (n ∉ (chainRecords doc c).map Prod.fst ∧ firstRecord lines c n = some nm)) := by
  induction lines generalizing doc with
  | nil => simp [firstRecord]
  | cons l rest ih =>
    rw [List.foldl_cons]
    cases hl : processLine l with
    | notAtom =>
      rw [ih]
      simp [docStep, firstRecord, hl]
    | malformed =>
      rw [ih]
      simp [docStep, firstRecord, hl]
    | record c0 n0 nm0 =>
      have hstep : docStep doc l = addRecord doc c0 n0 nm0 := by
        simp [docStep, hl]
      have hfr : firstRecord (l :: rest) c n
          = if c0 = c ∧ n0 = n then some nm0 else firstRecord rest c n := by
        simp [firstRecord, hl]
      rw [hstep, ih, chainRecords_addRecord, hfr]
      by_cases hc : c = c0
      · subst hc
        by_cases hn : n0 = n
        · subst hn
          by_cases hdup : ((chainRecords doc c).any (fun p => p.1 = n0)) = true
          · have hmem := (any_fst_eq _ _).mp hdup
            simp [hdup, hmem]
          · have hmem : n0 ∉ (chainRecords doc c).map Prod.fst :=
              fun hx => hdup ((any_fst_eq _ _).mpr hx)
            have hnotin : (n0, nm) ∉ chainRecords doc c :=
              fun hx => hmem (List.mem_map.mpr ⟨_, hx, rfl⟩)
            simp only [hdup, Bool.false_eq_true, if_false, and_self,
              eq_self_iff_true, if_true]
            constructor
            · rintro (h | h)
              · rcases List.mem_append.mp h with h | h
                · exact absurd h hnotin
                · have hv : nm = nm0 := by simpa using h
                  exact Or.inr ⟨hmem, by simp [hv]⟩
              · exact absurd
                  (by simp : n0 ∈ (chainRecords doc c ++ [(n0, nm0)]).map Prod.fst)
                  h.1
            · rintro (h | h)
              · exact absurd h hnotin
              · have hv : nm0 = nm := by simpa using h.2
                exact Or.inl (List.mem_append.mpr (Or.inr (by simp [hv])))
        · have hn2 : ¬ (c = c ∧ n0 = n) := fun hx => hn hx.2
          by_cases hdup : ((chainRecords doc c).any (fun p => p.1 = n0)) = true
          · simp [hdup, hn2, hn]
          · have hne : ¬ ((n, nm) : Int × String) = (n0, nm0) := by
              intro hx
              exact hn (congrArg Prod.fst hx).symm
            have hnn : ¬ n = n0 := fun hx => hn hx.symm
            simp [hdup, hn2, hn, hne, hnn, List.mem_append]
      · have hc2 : ¬ (c0 = c ∧ n0 = n) := fun hx => hc hx.1.symm
        simp [hc, hc2]

/-! ### Document invariants -/

theorem mem_addRecord {doc : Doc} {c : String} {n : Int} {nm : String}
    {p : String × List (Int × String)} (h : p ∈ addRecord doc c n nm) :
    p ∈ doc ∨ p = (c, [(n, nm)]) ∨
      ∃ l0, (c, l0) ∈ doc ∧ ¬ (l0.any (fun q => q.1 = n)) = true ∧
        p = (c, l0 ++ [(n, nm)]) := by
  induction doc with
  | nil =>
    right; left
    simpa [addRecord] using h
  | cons q rest ih =>
    obtain ⟨c0, l0⟩ := q
    by_cases h0 : c0 = c
    · subst h0
      by_cases hdup : (l0.any (fun q => q.1 = n)) = true
      · simp only [addRecord, if_pos rfl, if_pos hdup] at h
        exact Or.inl h
      · simp only [addRecord, if_pos rfl, if_neg hdup] at h
        rcases List.mem_cons.mp h with h | h
        · exact Or.inr (Or.inr ⟨l0, List.mem_cons_self _ _, hdup, h⟩)
        · exact Or.inl (List.mem_cons_of_mem _ h)
    · simp only [addRecord, if_neg h0] at h
      rcases List.mem_cons.mp h with h | h
      · exact Or.inl (h ▸ List.mem_cons_self _ _)
      · rcases ih h with h | h | ⟨l1, hm, hd, hp⟩
        · exact Or.inl (List.mem_cons_of_mem _ h)
        · exact Or.inr (Or.inl h)
        · exact Or.inr (Or.inr ⟨l1, List.mem_cons_of_mem _ hm, hd, hp⟩)

theorem docInv_addRecord {doc : Doc} (h : DocInv doc) (c : String) (n : Int)
    (nm : String) : DocInv (addRecord doc c n nm) := by
  intro p hp
  rcases mem_addRecord hp with hq | hq | ⟨l0, hm, hd, hp2⟩
  · exact h p hq
  · subst hq
    constructor
    · simp
    · simp
  · subst hp2
    obtain ⟨hnd, hne⟩ := h _ hm
    constructor
    · simp only [List.map_append, List.map_cons, List.map_nil]
      refine List.Nodup.append hnd (by simp) ?_
      intro a ha hb
      rcases List.mem_singleton.mp hb with rfl
      exact hd ((any_fst_eq _ _).mpr ha)
    · simp

theorem docInv_foldl (lines : List (List Char)) (doc : Doc) (h : DocInv doc) :
    DocInv (List.foldl docStep doc lines) := by
  induction lines generalizing doc with
  | nil => exact h
  | cons l rest ih =>
    rw [List.foldl_cons]
    apply ih
    cases hl : processLine l with
    | notAtom => rw [show docStep doc l = doc from by simp [docStep, hl]]; exact h
    | malformed => rw [show docStep doc l = doc from by simp [docStep, hl]]; exact h
    | record c n nm =>
      rw [show docStep doc l = addRecord doc c n nm from by simp [docStep, hl]]
      exact docInv_addRecord h c n nm

theorem docInv_nil : DocInv ([] : Doc) := fun p hp => absurd hp (List.not_mem_nil p)

theorem parse_docInv (lines : List (List Char)) :
    DocInv (List.foldl docStep [] lines) :=
  docInv_foldl lines [] docInv_nil

/-! ### Chain keys -/

theorem docKeys_addRecord (doc : Doc) (c : String) (n : Int) (nm : String)
    (c' : String) :
    c' ∈ docKeys (addRecord doc c n nm) ↔ c' ∈ docKeys doc ∨ c' = c := by
  induction doc with
  | nil => simp [addRecord, docKeys]
  | cons q rest ih =>
    obtain ⟨c0, l0⟩ := q
    by_cases h0 : c0 = c
    · subst h0
      by_cases hdup : (l0.any (fun q => q.1 = n)) = true <;>
        · simp only [addRecord, if_pos rfl, hdup, if_true, if_false,
            Bool.false_eq_true, docKeys, List.map_cons, List.mem_cons]
          tauto
    · simp only [addRecord, if_neg h0, docKeys, List.map_cons, List.mem_cons]
      have := ih
      simp only [docKeys] at this
      rw [this]
      tauto

theorem atomChainOf_of_notAtom {l : List Char} (h : processLine l = .notAtom) :
    atomChainOf l = none := by
  unfold processLine at h
  unfold atomChainOf
  by_cases hp : (("ATOM".toList).isPrefixOf l) = true
  · rw [if_pos hp] at h
    exfalso
    cases hd : l.drop 21 with
    | nil => rw [hd] at h; simp at h
    | cons ch cs =>
      rw [hd] at h
      cases hpi : pyInt (pyStrip (pySlice l 22 26)) with
      | none => rw [hpi] at h; simp at h
      | some m => rw [hpi] at h; simp at h
  · rw [if_neg hp]

theorem atomChainOf_of_record {l : List Char} {c : String} {n : Int} {nm : String}
    (h : processLine l = .record c n nm) : atomChainOf l = some c := by
  unfold processLine at h
  unfold atomChainOf
  by_cases hp : (("ATOM".toList).isPrefixOf l) = true
  · rw [if_pos hp] at h
    rw [if_pos hp]
    cases hd : l.drop 21 with
    | nil => rw [hd] at h; simp at h
    | cons ch cs =>
      rw [hd] at h
      cases hpi : pyInt (pyStrip (pySlice l 22 26)) with
      | none => rw [hpi] at h; simp at h
      | some m =>
        rw [hpi] at h
        simp only [LineResult.record.injEq] at h
        exact congrArg some h.1
  · rw [if_neg hp] at h
    simp at h

theorem docKeys_foldl (lines : List (List Char)) (doc : Doc) (c' : String)
    (hval : ∀ l ∈ lines, processLine l ≠ .malformed) :
    c' ∈ docKeys (List.foldl docStep doc lines) ↔
      c' ∈ docKeys doc ∨ (∃ l ∈ lines, atomChainOf l = some c') := by
  induction lines generalizing doc with
  | nil => simp
  | cons l rest ih =>
    have hval2 : ∀ x ∈ rest, processLine x ≠ .malformed :=
      fun x hx => hval x (List.mem_cons_of_mem _ hx)
    rw [List.foldl_cons]
    cases hl : processLine l with
    | notAtom =>
      rw [show docStep doc l = doc from by simp [docStep, hl], ih doc hval2]
      simp [atomChainOf_of_notAtom hl]
    | malformed => exact absurd hl (hval l (List.mem_cons_self _ _))
    | record c0 n0 nm0 =>
      rw [show docStep doc l = addRecord doc c0 n0 nm0 from by simp [docStep, hl],
        ih _ hval2, docKeys_addRecord]
      simp only [List.mem_cons, atomChainOf_of_record hl]
      constructor
      · rintro ((h | h) | h)
        · exact Or.inl h
        · exact Or.inr ⟨l, Or.inl rfl, by rw [atomChainOf_of_record hl, h]⟩
        · rcases h with ⟨x, hx, hc⟩
          exact Or.inr ⟨x, Or.inr hx, hc⟩
      · rintro (h | ⟨x, hx | hx, hc⟩)
        · exact Or.inl (Or.inl h)
        · subst hx
          rw [atomChainOf_of_record hl] at hc
          exact Or.inl (Or.inr (Option.some_inj.mp hc).symm)
        · exact Or.inr ⟨x, hx, hc⟩

/-! ### The one-letter translation loop -/

theorem foldl_oneLetterStep_fst (names : List String) (acc u : List String) :
    (names.foldl oneLetterStep (acc, u)).1 = acc ++ names.map oneToken := by
  induction names generalizing acc u with
  | nil => simp
  | cons nm rest ih =>
    simp only [List.foldl_cons, oneLetterStep]
    rw [ih]
    simp [oneToken]

theorem foldl_oneLetterStep_snd (names : List String) (acc u : List String) :
    (names.foldl oneLetterStep (acc, u)).2
      = (names.filter unknownName).foldl (fun acc2 a => insertSet a acc2) u := by
  induction names generalizing acc u with
  | nil => simp
  | cons nm rest ih =>
    simp only [List.foldl_cons, oneLetterStep, List.filter_cons]
    by_cases hk : THREE_TO_ONE nm = none
    · have hcond : ((THREE_TO_ONE nm).getD "X" = "X" ∧ THREE_TO_ONE nm = none) :=
        ⟨by rw [hk]; rfl, hk⟩
      have hu : unknownName nm = true := by simp [unknownName, hk]
      rw [if_pos hcond, hu, if_pos rfl]
      rw [ih]
      rfl
    · have hcond : ¬ ((THREE_TO_ONE nm).getD "X" = "X" ∧ THREE_TO_ONE nm = none) :=
        fun hx => hk hx.2
      have hu : ¬ unknownName nm = true := by simp [unknownName, hk]
      rw [if_neg hcond, if_neg (by simpa using hu)]
      exact ih _ _

theorem foldl_insertSet_ne_nil (l acc : List String) (h : acc ≠ []) :
    l.foldl (fun acc2 a => insertSet a acc2) acc ≠ [] := by
  induction l generalizing acc with
  | nil => exact h
  | cons a rest ih =>
    rw [List.foldl_cons]
    apply ih
    unfold insertSet
    by_cases hm : a ∈ acc
    · rw [if_pos hm]; exact h
    · rw [if_neg hm]
      exact fun hx => absurd hx (List.append_ne_nil_of_right_ne_nil acc (by simp))

theorem firstDedup_ne_nil {l : List String} (h : l ≠ []) : firstDedup l ≠ [] := by
  cases l with
  | nil => exact absurd rfl h
  | cons a rest =>
    unfold firstDedup
    rw [List.foldl_cons]
    apply foldl_insertSet_ne_nil
    simp [insertSet]

theorem format_sequence_of_empty (doc : Doc) (fmt : CodeFormat)
    (style : OutputStyle) (h : full_sequence_list doc = []) :
    format_sequence doc fmt style = ("", []) := by
  unfold format_sequence
  rw [if_pos (by simp [h])]

theorem isEmpty_false_of_ne_nil {α : Type} {l : List α} (h : l ≠ []) :
    l.isEmpty = false := by
  cases l with
  | nil => exact absurd rfl h
  | cons a as => rfl

theorem format_sequence_oneLetter_snd (doc : Doc) (style : OutputStyle)
    (h : ¬ full_sequence_list doc = []) :
    (format_sequence doc .oneLetter style).2
      = unknownWarning (firstDedup ((full_sequence_list doc).filter unknownName)) := by
  unfold format_sequence
  rw [if_neg (by simp [h])]
  have hsnd := foldl_oneLetterStep_snd (full_sequence_list doc) [] []
  cases style <;> simp [hsnd, firstDedup]

/-! ### The claims -/

/-- C1: for the Document with chain A carrying (5, ALA), (6, GLY) and chain B
carrying (1, SER), the formatter concatenates chains in lexical order with
each chain in sequence-number order and yields AGS for one-letter single-line,
ALA GLY SER for three-letter single-line, and A, G, S on separate lines for
one-letter multi-line, each with no warnings. -/
theorem claim_C1_scenario_formatting :
    format_sequence scenarioDoc .oneLetter .singleLine = ("AGS", []) ∧
    format_sequence scenarioDoc .threeLetter .singleLine = ("ALA GLY SER", []) ∧
    format_sequence scenarioDoc .oneLetter .multiLine = ("A\nG\nS", []) := by
  decide

/-- C2: one-letter formatting maps every one of the 20 table entries to its
table code, maps every other name to the sentinel X (the token list is
exactly the THREE_TO_ONE lookup with default X), and emits exactly one
warning carrying the distinct unknown names, sorted and comma-separated,
precisely when an unknown name occurred. -/
theorem claim_C2_one_letter_codes (doc : Doc) (style : OutputStyle) :
    (∀ p ∈ threeToOneTable, THREE_TO_ONE p.1 = some p.2) ∧
    ((full_sequence_list doc).foldl oneLetterStep ([], [])).1
        = (full_sequence_list doc).map oneToken ∧
    (format_sequence doc .oneLetter style).2
        = (if (full_sequence_list doc).filter unknownName = [] then ([] : List Diag)
           else [Diag.unknownResidues (String.intercalate ", "
                  (sortStrings (firstDedup
                    ((full_sequence_list doc).filter unknownName))))]) := by
  refine ⟨by decide,
    by simpa using foldl_oneLetterStep_fst (full_sequence_list doc) [] [], ?_⟩
  by_cases hempty : full_sequence_list doc = []
  · rw [format_sequence_of_empty doc _ style hempty, hempty]
    simp [unknownWarning, firstDedup]
  · rw [format_sequence_oneLetter_snd doc style hempty]
    by_cases hf : (full_sequence_list doc).filter unknownName = []
    · rw [if_pos hf, hf]
      simp [unknownWarning, firstDedup]
    · rw [if_neg hf]
      have hne2 := firstDedup_ne_nil hf
      unfold unknownWarning
      rw [if_neg (by simp [isEmpty_false_of_ne_nil hne2])]

/-- C3: every chain list of the Document returned by the extractor is
strictly increasing in its sequence numbers, with no duplicates, however
many atom lines named the same residue number. -/
theorem claim_C3_strictly_increasing (lines : List (List Char)) (c : String)
    (l : List (Int × String)) (h : (c, l) ∈ (parse_pdb_sequence lines).1) :
    l.Pairwise (fun a b => a.1 < b.1) ∧ (l.map Prod.fst).Nodup := by
  rw [parse_pdb_sequence_fst] at h
  rcases List.mem_map.mp h with ⟨q, hq, he⟩
  obtain ⟨hnd, -⟩ := parse_docInv lines q hq
  have hl : sortChain q.2 = l := congrArg Prod.snd he
  subst hl
  have hperm : List.Perm (sortChain q.2) q.2 := List.perm_insertionSort recLe q.2
  have hnd2 : ((sortChain q.2).map Prod.fst).Nodup :=
    ((hperm.map Prod.fst).nodup_iff).mpr hnd
  refine ⟨?_, hnd2⟩
  have hsorted : List.Pairwise recLe (sortChain q.2) :=
    List.sorted_insertionSort recLe q.2
  have hne : List.Pairwise (fun a b : Int × String => a.1 ≠ b.1) (sortChain q.2) :=
    List.pairwise_map.mp hnd2
  exact (List.pairwise_and_iff.mpr ⟨hsorted, hne⟩).imp
    (fun hx => recLe_lt_of_ne hx.1 hx.2)

/-- C3 witness: the sample file with residues 5 and 6 on chain A. -/
theorem claim_C3_witness :
    (("A", [((5 : Int), "ALA"), (6, "GLY")])
        ∈ (parse_pdb_sequence [sampleLineA5, sampleLineA6]).1) ∧
    (List.Pairwise (fun a b => a.1 < b.1) [((5 : Int), "ALA"), (6, "GLY")] ∧
      (([((5 : Int), "ALA"), (6, "GLY")]).map Prod.fst).Nodup) :=
  ⟨by decide, claim_C3_strictly_increasing [sampleLineA5, sampleLineA6] "A"
    [(5, "ALA"), (6, "GLY")] (by decide)⟩

/-- C4: a record is kept only when its sequence number is new for its chain,
so the residue recorded for chain c and number n is exactly the one of the
first line of the file that parses to chain c with number n. -/
theorem claim_C4_first_wins (lines : List (List Char)) (c : String) (n : Int)
    (nm : String) :
    (n, nm) ∈ chainRecords (parse_pdb_sequence lines).1 c ↔
      firstRecord lines c n = some nm := by
  rw [parse_pdb_sequence_fst, chainRecords_map_sortChain, mem_sortChain,
    mem_chainRecords_foldl]
  simp [chainRecords]

/-- C4 witness: with a duplicate of sequence number 5 on chain A, the name
of the earlier line, ALA, is the one retained. -/
theorem claim_C4_witness :
    (((5 : Int), "ALA")
        ∈ chainRecords (parse_pdb_sequence [sampleLineA5, sampleLineA5dup]).1 "A" ↔
      firstRecord [sampleLineA5, sampleLineA5dup] "A" 5 = some "ALA") :=
  claim_C4_first_wins [sampleLineA5, sampleLineA5dup] "A" 5 "ALA"

/-- C5: a line marked as an atom record whose fields are malformed is
skipped with a warning naming the stripped line, and the Document is the
one obtained from the same file with that line removed. -/
theorem claim_C5_malformed_line_skipped (pre post : List (List Char))
    (l : List Char) (h : processLine l = .malformed) :
    (parse_pdb_sequence (pre ++ l :: post)).1
        = (parse_pdb_sequence (pre ++ post)).1 ∧
    Diag.skipLine (String.mk (pyStrip l))
        ∈ (parse_pdb_sequence (pre ++ l :: post)).2 := by
  constructor
  · rw [parse_pdb_sequence_fst, parse_pdb_sequence_fst]
    congr 1
    rw [List.foldl_append, List.foldl_append, List.foldl_cons]
    congr 1
    simp [docStep, h]
  · rw [parse_pdb_sequence_snd]
    exact List.mem_filterMap.mpr ⟨l, by simp, by simp [lineWarn, h]⟩

/-- C5 witness: the sample line with a non-numeric sequence-number field,
between two valid lines. -/
theorem claim_C5_witness :
    processLine sampleLineBadSeq = .malformed ∧
    ((parse_pdb_sequence ([sampleLineA5] ++ sampleLineBadSeq :: [sampleLineB1])).1
        = (parse_pdb_sequence ([sampleLineA5] ++ [sampleLineB1])).1 ∧
      Diag.skipLine (String.mk (pyStrip sampleLineBadSeq))
        ∈ (parse_pdb_sequence
            ([sampleLineA5] ++ sampleLineBadSeq :: [sampleLineB1])).2) :=
  ⟨by decide, claim_C5_malformed_line_skipped [sampleLineA5] [sampleLineB1]
    sampleLineBadSeq (by decide)⟩

/-- C6: on a file whose atom lines all parse, the Document chain keys are
exactly the distinct chain identifiers of column 22 of the atom-marked
lines, a blank column counting as the default chain A. -/
theorem claim_C6_chain_keys (lines : List (List Char))
    (h : ∀ l ∈ lines, processLine l ≠ .malformed) (c : String) :
    c ∈ docKeys (parse_pdb_sequence lines).1 ↔ c ∈ lines.filterMap atomChainOf := by
  rw [parse_pdb_sequence_fst]
  have hkeys : docKeys ((List.foldl docStep [] lines).map
      (fun p => (p.1, sortChain p.2))) = docKeys (List.foldl docStep [] lines) := by
    unfold docKeys
    rw [List.map_map]
    rfl
  rw [hkeys, docKeys_foldl lines [] c h]
  simp [docKeys, List.mem_filterMap]

/-- C6 witness: the two-chain sample file. -/
theorem claim_C6_witness :
    (∀ l ∈ [sampleLineA5, sampleLineB1], processLine l ≠ .malformed) ∧
    ("B" ∈ docKeys (parse_pdb_sequence [sampleLineA5, sampleLineB1]).1 ↔
      "B" ∈ ([sampleLineA5, sampleLineB1]).filterMap atomChainOf) :=
  ⟨by decide, claim_C6_chain_keys [sampleLineA5, sampleLineB1] (by decide) "B"⟩

/-- C7: for a Document with at least one residue, the tokens are joined with
no separator for one-letter single-line, one space for three-letter
single-line, and a newline for multi-line in both code formats. -/
theorem claim_C7_separators (doc : Doc) (h : full_sequence_list doc ≠ []) :
    (format_sequence doc .oneLetter .singleLine).1
        = String.intercalate "" ((full_sequence_list doc).map oneToken) ∧
    (format_sequence doc .threeLetter .singleLine).1
        = String.intercalate " " (full_sequence_list doc) ∧
    (format_sequence doc .oneLetter .multiLine).1
        = String.intercalate "\n" ((full_sequence_list doc).map oneToken) ∧
    (format_sequence doc .threeLetter .multiLine).1
        = String.intercalate "\n" (full_sequence_list doc) := by
  refine ⟨?_, ?_, ?_, ?_⟩ <;>
    · unfold format_sequence
      rw [if_neg (by simp [h])]
      try simp [foldl_oneLetterStep_fst]

/-- C7 witness: the scenario Document. -/
theorem claim_C7_witness :
    full_sequence_list scenarioDoc ≠ [] ∧
    ((format_sequence scenarioDoc .oneLetter .singleLine).1
        = String.intercalate "" ((full_sequence_list scenarioDoc).map oneToken) ∧
      (format_sequence scenarioDoc .threeLetter .singleLine).1
        = String.intercalate " " (full_sequence_list scenarioDoc) ∧
      (format_sequence scenarioDoc .oneLetter .multiLine).1
        = String.intercalate "\n" ((full_sequence_list scenarioDoc).map oneToken) ∧
      (format_sequence scenarioDoc .threeLetter .multiLine).1
        = String.intercalate "\n" (full_sequence_list scenarioDoc)) :=
  ⟨by decide, claim_C7_separators scenarioDoc (by decide)⟩

/-- C8: on a successful run the target file holds exactly the formatter
output plus one trailing newline, and an extraction with no residues
produces the empty output string and a target file holding a single
newline. -/
theorem claim_C8_written_content (lines : List (List Char)) (fmt : CodeFormat)
    (style : OutputStyle) :
    ((main_run (some lines) fmt style true).target
        = .written ((format_sequence (parse_pdb_sequence lines).1 fmt style).1
            ++ "\n")) ∧
    (full_sequence_list (parse_pdb_sequence lines).1 = [] →
      ((format_sequence (parse_pdb_sequence lines).1 fmt style).1 = "" ∧
        (main_run (some lines) fmt style true).target = .written "\n")) := by
  have hmain : (main_run (some lines) fmt style true).target
      = .written ((format_sequence (parse_pdb_sequence lines).1 fmt style).1
          ++ "\n") := by
    by_cases hd : (parse_pdb_sequence lines).1 = []
    · have h1 := format_sequence_of_empty (parse_pdb_sequence lines).1 fmt style
        (by rw [hd]; rfl)
      rw [hd] at h1
      simp [main_run, write_output, hd, h1]
    · simp [main_run, write_output, isEmpty_false_of_ne_nil hd]
  refine ⟨hmain, fun hfull => ?_⟩
  have h1 := format_sequence_of_empty (parse_pdb_sequence lines).1 fmt style hfull
  constructor
  · rw [h1]
  · rw [hmain, h1]
    simp

/-- C8 witness: the empty source file. -/
theorem claim_C8_witness :
    (main_run (some []) .oneLetter .singleLine true).target = .written "\n" := by
  have h := claim_C8_written_content [] .oneLetter .singleLine
  exact (h.2 (by decide)).2

/-- C9: an unreadable source is fatal: exit code 1, the target file is never
touched, and the read error goes to the diagnostic stream. -/
theorem claim_C9_source_unreadable_fatal (fmt : CodeFormat) (style : OutputStyle)
    (writeOk : Bool) :
    main_run none fmt style writeOk
      = { exitCode := 1, target := .untouched, diags := [.readError] } := rfl

/-- C9 witness: one concrete run with an unreadable source. -/
theorem claim_C9_witness :
    main_run none .oneLetter .singleLine true
      = { exitCode := 1, target := .untouched, diags := [.readError] } :=
  claim_C9_source_unreadable_fatal .oneLetter .singleLine true

/-- C10: every chain key of a successfully extracted Document maps to a
nonempty residue list. -/
theorem claim_C10_chains_nonempty (lines : List (List Char)) (c : String)
    (l : List (Int × String)) (h : (c, l) ∈ (parse_pdb_sequence lines).1) :
    l ≠ [] := by
  rw [parse_pdb_sequence_fst] at h
  rcases List.mem_map.mp h with ⟨q, hq, he⟩
  obtain ⟨-, hne⟩ := parse_docInv lines q hq
  have hl : sortChain q.2 = l := congrArg Prod.snd he
  subst hl
  intro hnil
  have hperm : List.Perm (sortChain q.2) q.2 := List.perm_insertionSort recLe q.2
  exact hne ((hnil ▸ hperm).symm.eq_nil)

/-- C10 witness: the single-line sample file. -/
theorem claim_C10_witness :
    (("A", [((5 : Int), "ALA")]) ∈ (parse_pdb_sequence [sampleLineA5]).1) ∧
    ([((5 : Int), "ALA")] : List (Int × String)) ≠ [] :=
  ⟨by decide, claim_C10_chains_nonempty [sampleLineA5] "A" [(5, "ALA")] (by decide)⟩

/-- C2 witness: a Document with an unknown residue name. -/
theorem claim_C2_witness :
    (format_sequence [("A", [((1 : Int), "XYZ"), (2, "GLY"), (3, "ABC")])]
        .oneLetter .singleLine).2
      = [Diag.unknownResidues (String.intercalate ", " (sortStrings (firstDedup
          ((full_sequence_list [("A", [((1 : Int), "XYZ"), (2, "GLY"), (3, "ABC")])]).filter
            unknownName))))] := by
  have h := (claim_C2_one_letter_codes
    [("A", [((1 : Int), "XYZ"), (2, "GLY"), (3, "ABC")])] .singleLine).2.2
  rw [h, if_neg (by decide)]

end ProSeq
